import Mathlib

/-!
# Verification of the 0/1-knapsack portfolio optimiser (`gspython.py`)

Shallow embedding of the four solvers of `src/gspython.py`:

* `greedy_knapsack`    — greedy selection by descending value/hours ratio;
* `recursive_knapsack` — pure recursion over (index, remaining capacity);
* `memoized_knapsack`  — the same recursion with an explicit memo table
  (the Python dict is modelled by an association list threaded through
  the computation);
* `bottom_up_knapsack` — iterative DP table plus backtracking
  reconstruction.

Python integers are arbitrary precision, so all numbers are `Int`.
Python list indexing (negative indices wrap, out-of-range raises
`IndexError`) is modelled by `pyIndex` returning `Option`; fallible
functions return `Option`, `none` standing for a raised exception.
The float ratio `p.value / p.hours` of the greedy sort key is modelled
over `ℚ`; the ratio of a zero-hours project raises `ZeroDivisionError`
in Python, so `greedy_knapsack` returns `none` when the sort would have
to evaluate such a ratio.
-/

/-- The immutable `Project` record: `name`, `value` (benefit), `hours` (cost). -/
structure Project where
  name : String
  value : Int
  hours : Int
deriving DecidableEq, Repr

/-- Sum of the `value` fields of a list of projects. -/
def subsetValue (s : List Project) : Int := (s.map Project.value).sum

/-- Sum of the `hours` fields of a list of projects. -/
def subsetHours (s : List Project) : Int := (s.map Project.hours).sum

/-- Maximum of a list of integers, with `0` as the base of the fold. -/
def listMax (xs : List Int) : Int := xs.foldr max 0

/-- Values of all subsets (sublists) of `l` whose hours fit in capacity `c`. -/
def feasibleValues (l : List Project) (c : Int) : List Int :=
  ((l.sublists'.filter fun s => subsetHours s ≤ c).map subsetValue)

/-- The true 0/1-knapsack optimum: the maximum, over all subsets of the
input list whose hours sum to at most the capacity, of the subset's value
sum (`0` for the empty subset is always among the candidates when the
capacity is non-negative). -/
def specOpt (l : List Project) (c : Int) : Int := listMax (feasibleValues l c)

/-! ## The greedy solver -/

/-- The sort key of `greedy_knapsack`: the value-to-hours ratio,
modelled over `ℚ`. -/
def ratio (p : Project) : ℚ := (p.value : ℚ) / (p.hours : ℚ)

/-- The greedy acceptance loop of `greedy_knapsack`: scan the (sorted)
projects, accept each one whose hours fit in the remaining capacity,
accumulating total value and the chosen list in scan order. -/
def greedyLoop : List Project → Int → Int × List Project
  | [], _ => (0, [])
  | p :: rest, remaining =>
    if p.hours ≤ remaining then
      let s := greedyLoop rest (remaining - p.hours)
      (p.value + s.1, p :: s.2)
    else
      greedyLoop rest remaining

/-- `greedy_knapsack(projects, capacity)`: guard non-positive capacity and
empty input, then sort by descending ratio (stably, as Python's `sorted`
with `reverse=True`) and run the acceptance loop.  Python's `sorted`
evaluates the key on every element, so a zero-hours project raises
`ZeroDivisionError` (modelled as `none`) whenever the sort is reached. -/
def greedy_knapsack (projects : List Project) (capacity : Int) :
    Option (Int × List Project) :=
  if capacity ≤ 0 ∨ projects = [] then some (0, [])
  else if projects.all fun p => p.hours ≠ 0 then
    some (greedyLoop
      (List.insertionSort (fun a b => ratio b ≤ ratio a) projects) capacity)
  else none

/-! ## The pure recursive solver -/

/-- The inner `solve(i, remaining)` of `recursive_knapsack`: base case at
`i = n` or `remaining ≤ 0`; otherwise compare the excluding branch with
the including branch (sentinel value `-1` when the project does not fit),
the including branch winning only on strictly greater value. -/
def solveRec (projects : List Project) (i : Nat) (remaining : Int) :
    Int × List Project :=
  if h : projects.length ≤ i ∨ remaining ≤ 0 then (0, [])
  else
    have hi : i < projects.length := by omega
    let without := solveRec projects (i + 1) remaining
    let p := projects.get ⟨i, hi⟩
    let withPair : Int × List Project :=
      if p.hours ≤ remaining then
        let s := solveRec projects (i + 1) (remaining - p.hours)
        (s.1 + p.value, p :: s.2)
      else (-1, [])
    if without.1 < withPair.1 then withPair else without
termination_by projects.length - i

/-! ## The memoized solver -/

/-- The memo dictionary of `memoized_knapsack`, keyed by
`(index, remaining capacity)`; modelled as an association list with the
most recent binding first (insertion is prepending, lookup takes the
first hit, as for a Python dict with these exact keys). -/
def Memo : Type := List ((Nat × Int) × (Int × List Project))

/-- Dictionary lookup `memo[key]` / `key in memo`. -/
def memoFind (memo : Memo) (k : Nat × Int) : Option (Int × List Project) :=
  match memo with
  | [] => none
  | (k2, v) :: rest => if k2 = k then some v else memoFind rest k

/-- The inner `solve(i, remaining)` of `memoized_knapsack`: as `solveRec`
but consulting the memo before recomputing and storing every computed
result under its `(i, remaining)` key; the dictionary state is threaded
explicitly. -/
def solveMemo (projects : List Project) (i : Nat) (remaining : Int)
    (memo : Memo) : (Int × List Project) × Memo :=
  if h : projects.length ≤ i ∨ remaining ≤ 0 then ((0, []), memo)
  else
    have hi : i < projects.length := by omega
    match memoFind memo (i, remaining) with
    | some v => (v, memo)
    | none =>
      let w := solveMemo projects (i + 1) remaining memo
      let without := w.1
      let p := projects.get ⟨i, hi⟩
      let wp : (Int × List Project) × Memo :=
        if p.hours ≤ remaining then
          let s := solveMemo projects (i + 1) (remaining - p.hours) w.2
          ((s.1.1 + p.value, p :: s.1.2), s.2)
        else ((-1, []), w.2)
      let best := if without.1 < wp.1.1 then wp.1 else without
      (best, ((i, remaining), best) :: wp.2)
termination_by projects.length - i

/-- `memoized_knapsack(projects, capacity)`: run the memoized solve from
`(0, capacity)` with a fresh empty dictionary and return its value. -/
def memoized_knapsack (projects : List Project) (capacity : Int) :
    Int × List Project :=
  (solveMemo projects 0 capacity []).1

/-! ## The bottom-up (tabular) solver -/

/-- Python list indexing `row[i]`: a negative index counts from the end,
an index out of range raises `IndexError` (`none`). -/
def pyIndex (row : List Int) (i : Int) : Option Int :=
  let n : Int := row.length
  let j := if i < 0 then n + i else i
  if h : 0 ≤ j ∧ j < n then
    some (row.get ⟨j.toNat, by omega⟩)
  else none

/-- Collect a list of optional values, failing if any entry fails
(the effect of a loop whose body may raise). -/
def optionList {α : Type} : List (Option α) → Option (List α)
  | [] => some []
  | none :: _ => none
  | some a :: rest => (optionList rest).map (a :: ·)

/-- One entry `T[i][c]` of the DP table, computed from the previous row:
start from the excluding value `T[i-1][c]`, and when the project fits
(`p.hours ≤ c`) replace it by `T[i-1][c - p.hours] + p.value` if that is
strictly greater. -/
def buildEntry (prev : List Int) (p : Project) (c : Int) : Option Int :=
  match pyIndex prev c with
  | none => none
  | some best =>
    if p.hours ≤ c then
      match pyIndex prev (c - p.hours) with
      | none => none
      | some pv =>
        let cand := pv + p.value
        some (if best < cand then cand else best)
    else some best

/-- Row `i` of the DP table: entries for `c = 0 .. capacity`
(the loop `for c in range(0, capacity + 1)`). -/
def buildRow (prev : List Int) (p : Project) (capacity : Int) :
    Option (List Int) :=
  optionList ((List.range (capacity + 1).toNat).map
    fun cN : Nat => buildEntry prev p (cN : Int))

/-- Rows `1 .. n` of the DP table, each built from its predecessor
(the loop `for i in range(1, n + 1)`). -/
def buildRows (prev : List Int) (l : List Project) (capacity : Int) :
    Option (List (List Int)) :=
  match l with
  | [] => some []
  | p :: rest =>
    match buildRow prev p capacity with
    | none => none
    | some row =>
      match buildRows row rest capacity with
      | none => none
      | some rows => some (row :: rows)

/-- Row `0` of the DP table: `[0] * (capacity + 1)` (empty when the
capacity is negative, as in Python). -/
def row0 (capacity : Int) : List Int :=
  List.replicate (capacity + 1).toNat 0

/-- The full DP table `T` of `bottom_up_knapsack`:
`(n + 1)` rows, row `0` all zeros, rows `1 .. n` filled in by the
transition. -/
def bottomUpTable (projects : List Project) (capacity : Int) :
    Option (List (List Int)) :=
  (buildRows (row0 capacity) projects capacity).map (row0 capacity :: ·)

/-- The backtracking reconstruction of `bottom_up_knapsack`: walk `i`
from `n` down to `1` at the current capacity `c`; when
`T[i][c] != T[i-1][c]` project `i-1` was used — record it (appending, as
the Python loop does) and decrement `c` by its hours. Returns the
recorded list (still in descending-`i` order) and the final `c`. -/
def backtrack (T : List (List Int)) (projects : List Project) :
    Nat → Int → List Project → Option (List Project × Int)
  | 0, c, acc => some (acc, c)
  | i + 1, c, acc =>
    match T.get? (i + 1), T.get? i with
    | some rowi, some rowim1 =>
      match pyIndex rowi c, pyIndex rowim1 c with
      | some vi, some vim1 =>
        if vi ≠ vim1 then
          match projects.get? i with
          | none => none
          | some p => backtrack T projects i (c - p.hours) (acc ++ [p])
        else
          backtrack T projects i c acc
      | _, _ => none
    | _, _ => none

/-- `bottom_up_knapsack(projects, capacity)`: build the table, run the
backtracking reconstruction, reverse the recorded list to restore input
order, and return `(T[n][capacity], chosen)`.  `none` models a raised
`IndexError` (which Python hits, e.g., for every negative capacity). -/
def bottom_up_knapsack (projects : List Project) (capacity : Int) :
    Option (Int × List Project) :=
  match bottomUpTable projects capacity with
  | none => none
  | some T =>
    match backtrack T projects projects.length capacity [] with
    | none => none
    | some br =>
      match T.get? projects.length with
      | none => none
      | some lastRow =>
        match pyIndex lastRow capacity with
        | none => none
        | some v => some (v, br.1.reverse)

/-- `recursive_knapsack(projects, capacity) = solve(0, capacity)`. -/
def recursive_knapsack (projects : List Project) (capacity : Int) :
    Int × List Project :=
  solveRec projects 0 capacity

/-- Structural restatement of `solveRec` on the remaining suffix of the
project list (used only in proofs; `solveRec_eq_solveList` relates it to
the indexed source form). -/
def solveList : List Project → Int → Int × List Project
  | [], _ => (0, [])
  | p :: rest, remaining =>
    if remaining ≤ 0 then (0, [])
    else
      let without := solveList rest remaining
      let withPair : Int × List Project :=
        if p.hours ≤ remaining then
          let s := solveList rest (remaining - p.hours)
          (s.1 + p.value, p :: s.2)
        else (-1, [])
      if without.1 < withPair.1 then withPair else without

/-! ## Basic lemmas about `listMax`, subset sums and `specOpt` -/

theorem le_listMax_of_mem {x : Int} {xs : List Int} (hx : x ∈ xs) :
    x ≤ listMax xs := by
  induction xs with
  | nil => cases hx
  | cons y ys ih =>
    rcases List.mem_cons.1 hx with rfl | hmem
    · exact le_max_left _ _
    · exact (ih hmem).trans (le_max_right _ _)

theorem listMax_le {xs : List Int} {b : Int} (hb : 0 ≤ b)
    (h : ∀ x ∈ xs, x ≤ b) : listMax xs ≤ b := by
  induction xs with
  | nil => exact hb
  | cons y ys ih =>
    exact max_le (h y (List.mem_cons_self y ys))
      (ih fun x hx => h x (List.mem_cons_of_mem y hx))

theorem listMax_nonneg (xs : List Int) : 0 ≤ listMax xs := by
  induction xs with
  | nil => exact le_refl 0
  | cons y ys ih => exact ih.trans (le_max_right _ _)

theorem subsetValue_nil : subsetValue [] = 0 := rfl

theorem subsetHours_nil : subsetHours [] = 0 := rfl

theorem subsetValue_cons (p : Project) (s : List Project) :
    subsetValue (p :: s) = p.value + subsetValue s := by
  simp [subsetValue]

theorem subsetHours_cons (p : Project) (s : List Project) :
    subsetHours (p :: s) = p.hours + subsetHours s := by
  simp [subsetHours]

theorem subsetValue_perm {s t : List Project} (h : s.Perm t) :
    subsetValue s = subsetValue t :=
  (h.map Project.value).sum_eq

theorem subsetHours_perm {s t : List Project} (h : s.Perm t) :
    subsetHours s = subsetHours t :=
  (h.map Project.hours).sum_eq

theorem subsetHours_nonneg {s l : List Project}
    (Hh : ∀ p ∈ l, 0 < p.hours) (hs : s.Sublist l) : 0 ≤ subsetHours s := by
  induction s with
  | nil => exact le_refl 0
  | cons p rest ih =>
    have hp : p ∈ l := hs.subset (List.mem_cons_self p rest)
    have hrest : rest.Sublist l :=
      (List.sublist_cons_self p rest).trans hs
    have := ih hrest
    rw [subsetHours_cons]
    have := Hh p hp
    omega

theorem subsetHours_eq_zero {s l : List Project}
    (Hh : ∀ p ∈ l, 0 < p.hours) (hs : s.Sublist l)
    (h : subsetHours s ≤ 0) : s = [] := by
  cases s with
  | nil => rfl
  | cons p rest =>
    exfalso
    have hp : 0 < p.hours := Hh p (hs.subset (List.mem_cons_self p rest))
    have hrest : rest.Sublist l := (List.sublist_cons_self p rest).trans hs
    have := subsetHours_nonneg Hh hrest
    rw [subsetHours_cons] at h
    omega

theorem subsetValue_nonneg {s l : List Project}
    (Hv : ∀ p ∈ l, 0 ≤ p.value) (hs : s.Sublist l) : 0 ≤ subsetValue s := by
  induction s with
  | nil => exact le_refl 0
  | cons p rest ih =>
    have hp : p ∈ l := hs.subset (List.mem_cons_self p rest)
    have hrest : rest.Sublist l := (List.sublist_cons_self p rest).trans hs
    have := ih hrest
    rw [subsetValue_cons]
    have := Hv p hp
    omega

/-- Any feasible subset's value is bounded by the optimum. -/
theorem le_specOpt {s l : List Project} {c : Int} (hs : s.Sublist l)
    (hf : subsetHours s ≤ c) : subsetValue s ≤ specOpt l c := by
  apply le_listMax_of_mem
  unfold feasibleValues
  apply List.mem_map_of_mem
  rw [List.mem_filter]
  exact ⟨List.mem_sublists'.2 hs, decide_eq_true hf⟩

/-- The optimum is at most any bound dominating every feasible subset. -/
theorem specOpt_le {l : List Project} {c b : Int} (hb : 0 ≤ b)
    (h : ∀ s, s.Sublist l → subsetHours s ≤ c → subsetValue s ≤ b) :
    specOpt l c ≤ b := by
  apply listMax_le hb
  intro x hx
  unfold feasibleValues at hx
  rcases List.mem_map.1 hx with ⟨s, hsmem, rfl⟩
  rw [List.mem_filter] at hsmem
  exact h s (List.mem_sublists'.1 hsmem.1) (of_decide_eq_true hsmem.2)

theorem specOpt_nonneg (l : List Project) {c : Int} (hc : 0 ≤ c) :
    0 ≤ specOpt l c := by
  have : subsetValue [] ≤ specOpt l c :=
    le_specOpt (List.nil_sublist l) (by simpa [subsetHours_nil] using hc)
  simpa [subsetValue_nil] using this

theorem specOpt_nil {c : Int} (hc : 0 ≤ c) : specOpt [] c = 0 := by
  refine le_antisymm ?_ (specOpt_nonneg [] hc)
  refine specOpt_le (le_refl 0) ?_
  intro s hs _
  rw [List.sublist_nil.1 hs, subsetValue_nil]

/-- With strictly positive hours a capacity of `0` admits only the empty
subset, so the optimum is `0`. -/
theorem specOpt_zero_cap {l : List Project} (Hh : ∀ p ∈ l, 0 < p.hours) :
    specOpt l 0 = 0 := by
  refine le_antisymm ?_ (specOpt_nonneg l (le_refl 0))
  refine specOpt_le (le_refl 0) ?_
  intro s hs hf
  rw [subsetHours_eq_zero Hh hs hf, subsetValue_nil]

/-- The optimum only depends on the multiset of projects. -/
theorem specOpt_perm {l l' : List Project} {c : Int} (hp : l.Perm l')
    (hc : 0 ≤ c) : specOpt l c = specOpt l' c := by
  have key : ∀ {m m' : List Project}, m.Perm m' →
      specOpt m c ≤ specOpt m' c := by
    intro m m' hmm
    refine specOpt_le (specOpt_nonneg m' hc) ?_
    intro s hs hf
    have hsp : s.Subperm m' := hs.subperm.trans hmm.subperm
    rcases hsp with ⟨t, hts, htl⟩
    calc subsetValue s = subsetValue t := (subsetValue_perm hts).symm
      _ ≤ specOpt m' c :=
        le_specOpt htl (by rw [subsetHours_perm hts]; exact hf)
  exact le_antisymm (key hp) (key hp.symm)

/-! ## Correctness of the structural solver `solveList` -/

/-- Soundness of `solveList`: the returned subset is a sublist of the
input, its value sum is the returned value, the returned value is
non-negative, and (for a non-negative capacity) its hours fit. -/
theorem solveList_sound : ∀ (l : List Project) (c : Int),
    (solveList l c).2.Sublist l ∧
    subsetValue (solveList l c).2 = (solveList l c).1 ∧
    0 ≤ (solveList l c).1 ∧
    (0 ≤ c → subsetHours (solveList l c).2 ≤ c)
  | [], c => by
    simp only [solveList]
    exact ⟨List.Sublist.refl [], rfl, le_refl 0, fun hc => by
      simpa [subsetHours_nil] using hc⟩
  | p :: rest, c => by
    obtain ⟨ih1s, ih1v, ih1n, ih1h⟩ := solveList_sound rest c
    obtain ⟨ih2s, ih2v, ih2n, ih2h⟩ := solveList_sound rest (c - p.hours)
    simp only [solveList]
    by_cases hc : c ≤ 0
    · simp only [if_pos hc]
      exact ⟨List.nil_sublist _, rfl, le_refl 0, fun hc2 => by
        simpa [subsetHours_nil] using hc2⟩
    · simp only [if_neg hc]
      by_cases hfit : p.hours ≤ c
      · simp only [if_pos hfit]
        by_cases hlt :
            (solveList rest c).1 < (solveList rest (c - p.hours)).1 + p.value
        · simp only [if_pos hlt]
          refine ⟨ih2s.cons₂ p, ?_, by omega, fun _ => ?_⟩
          · rw [subsetValue_cons, ih2v]; omega
          · rw [subsetHours_cons]
            have := ih2h (by omega)
            omega
        · simp only [if_neg hlt]
          exact ⟨ih1s.cons p, ih1v, ih1n, ih1h⟩
      · simp only [if_neg hfit]
        have hlt : ¬ (solveList rest c).1 < (-1 : Int) := by omega
        simp only [if_neg hlt]
        exact ⟨ih1s.cons p, ih1v, ih1n, ih1h⟩

/-- Completeness of `solveList`: no feasible subset beats the returned
value (positive hours are needed: a non-empty subset cannot fit in a
non-positive capacity). -/
theorem solveList_complete : ∀ (l : List Project), ∀ {c : Int},
    (∀ p ∈ l, 0 < p.hours) → ∀ {s : List Project}, s.Sublist l →
    subsetHours s ≤ c → subsetValue s ≤ (solveList l c).1
  | [], c => by
    intro _ s hs _
    rw [List.sublist_nil.1 hs]
    simp [solveList, subsetValue_nil]
  | p :: rest, c => by
    intro Hh s hs hf
    have Hhrest : ∀ q ∈ rest, 0 < q.hours :=
      fun q hq => Hh q (List.mem_cons_of_mem p hq)
    simp only [solveList]
    by_cases hc : c ≤ 0
    · simp only [if_pos hc]
      rw [subsetHours_eq_zero Hh hs (hf.trans hc), subsetValue_nil]
    · simp only [if_neg hc]
      rcases List.sublist_cons_iff.1 hs with hrest | ⟨s', rfl, hs'⟩
      · -- the subset avoids `p`: it is dominated by the excluding branch
        have hbound := solveList_complete rest Hhrest hrest hf
        by_cases hfit : p.hours ≤ c
        · simp only [if_pos hfit]
          by_cases hlt :
              (solveList rest c).1 < (solveList rest (c - p.hours)).1 + p.value
          · simp only [if_pos hlt]; omega
          · simp only [if_neg hlt]; exact hbound
        · simp only [if_neg hfit]
          have hlt : ¬ (solveList rest c).1 < (-1 : Int) := by
            have := (solveList_sound rest c).2.2.1
            omega
          simp only [if_neg hlt]
          exact hbound
      · -- the subset contains `p`: it is dominated by the including branch
        have hhs' : 0 ≤ subsetHours s' := subsetHours_nonneg Hhrest hs'
        rw [subsetHours_cons] at hf
        have hfit : p.hours ≤ c := by omega
        have hbound := solveList_complete rest Hhrest hs'
          (c := c - p.hours) (by omega)
        simp only [if_pos hfit]
        rw [subsetValue_cons]
        by_cases hlt :
            (solveList rest c).1 < (solveList rest (c - p.hours)).1 + p.value
        · simp only [if_pos hlt]; omega
        · simp only [if_neg hlt]; omega

/-- `solveList` computes the knapsack optimum. -/
theorem solveList_optimal {l : List Project} {c : Int}
    (Hh : ∀ p ∈ l, 0 < p.hours) (hc : 0 ≤ c) :
    (solveList l c).1 = specOpt l c := by
  obtain ⟨hsub, hval, hnn, hhrs⟩ := solveList_sound l c
  refine le_antisymm ?_ (specOpt_le hnn fun s hs hf => solveList_complete l Hh hs hf)
  rw [← hval]
  exact le_specOpt hsub (hhrs hc)

/-! ## The indexed solver agrees with the structural one -/

theorem solveRec_eq_solveList (projects : List Project) (i : Nat) (r : Int) :
    solveRec projects i r = solveList (projects.drop i) r := by
  rw [solveRec]
  by_cases h : projects.length ≤ i ∨ r ≤ 0
  · rw [dif_pos h]
    rcases h with h | h
    · rw [List.drop_eq_nil_of_le h]
      simp [solveList]
    · cases hd : projects.drop i with
      | nil => simp [solveList]
      | cons q rest => simp [solveList, if_pos h]
  · rw [dif_neg h]
    have hi : i < projects.length := by omega
    have hr : ¬ r ≤ 0 := by omega
    have hd : projects.drop i = projects[i] :: projects.drop (i + 1) :=
      List.drop_eq_getElem_cons hi
    have e1 := solveRec_eq_solveList projects (i + 1) r
    have e2 := solveRec_eq_solveList projects (i + 1) (r - projects[i].hours)
    rw [hd]
    simp only [solveList, if_neg hr, e1, e2, List.get_eq_getElem]
termination_by projects.length - i
decreasing_by all_goals simp_wf; omega

theorem recursive_knapsack_eq_solveList (projects : List Project)
    (capacity : Int) :
    recursive_knapsack projects capacity = solveList projects capacity := by
  rw [recursive_knapsack, solveRec_eq_solveList, List.drop_zero]

/-! ## Bellman equations for the optimum -/

/-- Adding a project at the head: the optimum satisfies the knapsack
recurrence. -/
theorem specOpt_cons {p : Project} {l : List Project} {c : Int}
    (Hh : ∀ q ∈ p :: l, 0 < q.hours) (hc : 0 ≤ c) :
    specOpt (p :: l) c =
      if p.hours ≤ c then
        max (specOpt l c) (specOpt l (c - p.hours) + p.value)
      else specOpt l c := by
  have Hhl : ∀ q ∈ l, 0 < q.hours := fun q hq => Hh q (List.mem_cons_of_mem p hq)
  have hp : 0 < p.hours := Hh p (List.mem_cons_self p l)
  by_cases hfit : p.hours ≤ c
  · rw [if_pos hfit]
    have hcpos : ¬ c ≤ 0 := by omega
    have hc2 : 0 ≤ c - p.hours := by omega
    rw [← solveList_optimal Hh hc, ← solveList_optimal Hhl hc,
      ← solveList_optimal Hhl hc2]
    simp only [solveList, if_neg hcpos, if_pos hfit]
    by_cases hlt :
        (solveList l c).1 < (solveList l (c - p.hours)).1 + p.value
    · simp only [if_pos hlt]
      omega
    · simp only [if_neg hlt]
      omega
  · rw [if_neg hfit]
    by_cases hc0 : c ≤ 0
    · have hceq : c = 0 := by omega
      subst hceq
      rw [specOpt_zero_cap Hh, specOpt_zero_cap Hhl]
    · rw [← solveList_optimal Hh hc, ← solveList_optimal Hhl hc]
      have hlt : ¬ (solveList l c).1 < (-1 : Int) := by
        have := (solveList_sound l c).2.2.1
        omega
      simp only [solveList, if_neg hc0, if_neg hfit, if_neg hlt]

/-- Adding a project at the end: the recurrence used by the DP table. -/
theorem specOpt_append {l : List Project} {p : Project} {c : Int}
    (Hh : ∀ q ∈ l ++ [p], 0 < q.hours) (hc : 0 ≤ c) :
    specOpt (l ++ [p]) c =
      if p.hours ≤ c then
        max (specOpt l c) (specOpt l (c - p.hours) + p.value)
      else specOpt l c := by
  have hperm : (l ++ [p]).Perm (p :: l) := List.perm_append_singleton p l
  rw [specOpt_perm hperm hc]
  exact specOpt_cons (fun q hq => Hh q (hperm.symm.subset hq)) hc

/-! ## The greedy solver: soundness and the optimum bound -/

theorem greedyLoop_sound : ∀ (l : List Project) (r : Int),
    (greedyLoop l r).2.Sublist l ∧
    subsetValue (greedyLoop l r).2 = (greedyLoop l r).1 ∧
    (0 ≤ r → subsetHours (greedyLoop l r).2 ≤ r)
  | [], r => by
    simp only [greedyLoop]
    exact ⟨List.Sublist.refl [], rfl, fun hr => by
      simpa [subsetHours_nil] using hr⟩
  | p :: rest, r => by
    obtain ⟨ih1s, ih1v, ih1h⟩ := greedyLoop_sound rest (r - p.hours)
    obtain ⟨ih2s, ih2v, ih2h⟩ := greedyLoop_sound rest r
    simp only [greedyLoop]
    by_cases hfit : p.hours ≤ r
    · simp only [if_pos hfit]
      refine ⟨ih1s.cons₂ p, ?_, fun hr => ?_⟩
      · rw [subsetValue_cons, ih1v]
      · rw [subsetHours_cons]
        -- the remaining budget `r - p.hours` may be negative only if
        -- `p.hours > r`, excluded by the acceptance test
        by_cases hrem : 0 ≤ r - p.hours
        · have := ih1h hrem
          omega
        · omega
  -- when the hours do not fit the project is skipped
    · simp only [if_neg hfit]
      exact ⟨ih2s.cons p, ih2v, ih2h⟩

/-- Everything `greedy_knapsack` returns is a genuine solution: its value
is the chosen subset's value sum, the chosen hours fit, and the value is
at most the true optimum. -/
theorem greedy_spec {projects : List Project} {capacity : Int}
    {gv : Int} {gch : List Project} (hc : 0 ≤ capacity)
    (h : greedy_knapsack projects capacity = some (gv, gch)) :
    gv = subsetValue gch ∧ subsetHours gch ≤ capacity ∧
    gv ≤ specOpt projects capacity := by
  rw [greedy_knapsack] at h
  by_cases htriv : capacity ≤ 0 ∨ projects = []
  · rw [if_pos htriv] at h
    obtain ⟨rfl, rfl⟩ : gv = 0 ∧ gch = [] := by
      have := Option.some.inj h
      exact ⟨congrArg Prod.fst this.symm, congrArg Prod.snd this.symm⟩
    exact ⟨rfl, by simpa [subsetHours_nil] using hc, specOpt_nonneg _ hc⟩
  · rw [if_neg htriv] at h
    by_cases hall : projects.all fun p => p.hours ≠ 0
    · rw [if_pos hall] at h
      set sorted := List.insertionSort (fun a b => ratio b ≤ ratio a) projects
        with hsorted
      obtain ⟨rfl, rfl⟩ :
          gv = (greedyLoop sorted capacity).1 ∧
          gch = (greedyLoop sorted capacity).2 := by
        have := Option.some.inj h
        exact ⟨congrArg Prod.fst this.symm, congrArg Prod.snd this.symm⟩
      obtain ⟨hsub, hval, hhrs⟩ := greedyLoop_sound sorted capacity
      have hperm : sorted.Perm projects := List.perm_insertionSort _ projects
      refine ⟨hval.symm, hhrs hc, ?_⟩
      rw [← hval, ← specOpt_perm hperm hc]
      exact le_specOpt hsub (hhrs hc)
    · rw [if_neg hall] at h
      cases h

/-! ## Memoization preserves the recursive solver exactly -/

/-- A memo table is coherent when every stored binding is the value of
the pure recursive solve at its key. -/
def memoOK (projects : List Project) (memo : Memo) : Prop :=
  ∀ k v, memoFind memo k = some v → v = solveRec projects k.1 k.2

theorem memoOK_nil (projects : List Project) : memoOK projects [] :=
  fun k v h => by cases h

/-- Running the memoized solve on any coherent memo returns exactly the
pure recursive result and leaves the memo coherent. -/
theorem solveMemo_correct (projects : List Project) (i : Nat) (r : Int)
    (memo : Memo) (hm : memoOK projects memo) :
    (solveMemo projects i r memo).1 = solveRec projects i r ∧
    memoOK projects (solveMemo projects i r memo).2 := by
  rw [solveMemo]
  by_cases h : projects.length ≤ i ∨ r ≤ 0
  · rw [dif_pos h]
    exact ⟨by rw [solveRec, dif_pos h], hm⟩
  · rw [dif_neg h]
    have hi : i < projects.length := by omega
    cases hfind : memoFind memo (i, r) with
    | some v =>
      simp only
      exact ⟨hm (i, r) v hfind, hm⟩
    | none =>
      simp only
      obtain ⟨ih1v, ih1m⟩ := solveMemo_correct projects (i + 1) r memo hm
      by_cases hfit : (projects.get ⟨i, hi⟩).hours ≤ r
      · obtain ⟨ih2v, ih2m⟩ := solveMemo_correct projects (i + 1)
          (r - (projects.get ⟨i, hi⟩).hours)
          (solveMemo projects (i + 1) r memo).2 ih1m
        simp only [if_pos hfit]
        have hbest :
            (if (solveMemo projects (i + 1) r memo).1.1 <
                (solveMemo projects (i + 1)
                    (r - (projects.get ⟨i, hi⟩).hours)
                    (solveMemo projects (i + 1) r memo).2).1.1 +
                  (projects.get ⟨i, hi⟩).value then
              ((solveMemo projects (i + 1)
                    (r - (projects.get ⟨i, hi⟩).hours)
                    (solveMemo projects (i + 1) r memo).2).1.1 +
                  (projects.get ⟨i, hi⟩).value,
                projects.get ⟨i, hi⟩ ::
                  (solveMemo projects (i + 1)
                      (r - (projects.get ⟨i, hi⟩).hours)
                      (solveMemo projects (i + 1) r memo).2).1.2)
            else (solveMemo projects (i + 1) r memo).1) =
            solveRec projects i r := by
          rw [solveRec, dif_neg h]
          simp only [if_pos hfit, ih1v, ih2v]
        refine ⟨hbest, ?_⟩
        intro k v hk
        rw [memoFind] at hk
        by_cases hkey : ((i : Nat), r) = k
        · rw [if_pos hkey] at hk
          subst hkey
          rw [← Option.some.inj hk, hbest]
        · rw [if_neg hkey] at hk
          exact ih2m k v hk
      · simp only [if_neg hfit]
        have hbest :
            (if (solveMemo projects (i + 1) r memo).1.1 < (-1 : Int) then
              ((-1 : Int), ([] : List Project))
            else (solveMemo projects (i + 1) r memo).1) =
            solveRec projects i r := by
          rw [solveRec, dif_neg h]
          simp only [if_neg hfit, ih1v]
        refine ⟨hbest, ?_⟩
        intro k v hk
        rw [memoFind] at hk
        by_cases hkey : ((i : Nat), r) = k
        · rw [if_pos hkey] at hk
          subst hkey
          rw [← Option.some.inj hk, hbest]
        · rw [if_neg hkey] at hk
          exact ih1m k v hk
termination_by projects.length - i
decreasing_by all_goals simp_wf; omega

/-- `memoized_knapsack` returns exactly the `recursive_knapsack` pair. -/
theorem memoized_eq_recursive (projects : List Project) (capacity : Int) :
    memoized_knapsack projects capacity = recursive_knapsack projects capacity :=
  (solveMemo_correct projects 0 capacity [] (memoOK_nil projects)).1

/-! ## The DP table holds the optimum at every cell -/

theorem subsetHours_append (s t : List Project) :
    subsetHours (s ++ t) = subsetHours s + subsetHours t := by
  simp [subsetHours]

theorem subsetValue_append (s t : List Project) :
    subsetValue (s ++ t) = subsetValue s + subsetValue t := by
  simp [subsetValue]

/-- The intended contents of row `i` of the table: the optima of the
first `i` projects at every capacity `0 .. capacity`. -/
def rowFor (l : List Project) (capacity : Int) : List Int :=
  (List.range (capacity + 1).toNat).map fun cN : Nat => specOpt l (cN : Int)

/-- The intended contents of the whole table: row `i` describes the
prefix of the first `i` projects. -/
def tableFor (projects : List Project) (capacity : Int) : List (List Int) :=
  (List.range (projects.length + 1)).map fun i =>
    rowFor (projects.take i) capacity

theorem length_rowFor (l : List Project) (capacity : Int) :
    (rowFor l capacity).length = (capacity + 1).toNat := by
  simp [rowFor]

theorem pyIndex_rowFor {l : List Project} {capacity c : Int}
    (hc : 0 ≤ c) (hcc : c ≤ capacity) :
    pyIndex (rowFor l capacity) c = some (specOpt l c) := by
  have hlen : ((rowFor l capacity).length : Int) = capacity + 1 := by
    rw [length_rowFor]
    omega
  rw [pyIndex]
  have hj : ¬ c < 0 := by omega
  simp only [if_neg hj]
  have hin : 0 ≤ c ∧ c < ((rowFor l capacity).length : Int) := by omega
  rw [dif_pos hin, Option.some.injEq, List.get_eq_getElem]
  simp only [rowFor, List.getElem_map, List.getElem_range]
  congr 1
  omega

theorem row0_eq_rowFor_nil (capacity : Int) :
    row0 capacity = rowFor [] capacity := by
  rw [row0]
  have h2 : rowFor [] capacity =
      (List.range (capacity + 1).toNat).map fun _ : Nat => (0 : Int) := by
    rw [rowFor]
    apply List.map_congr_left
    intro cN _
    exact specOpt_nil (Int.ofNat_nonneg cN)
  rw [h2, List.map_const', List.length_range]

theorem buildEntry_rowFor {l : List Project} {p : Project} {capacity c : Int}
    (Hh : ∀ q ∈ l ++ [p], 0 < q.hours)
    (hc : 0 ≤ c) (hcc : c ≤ capacity) :
    buildEntry (rowFor l capacity) p c = some (specOpt (l ++ [p]) c) := by
  have hp : 0 < p.hours := Hh p (by simp)
  by_cases hfit : p.hours ≤ c
  · have h1 : 0 ≤ c - p.hours := by omega
    have h2 : c - p.hours ≤ capacity := by omega
    simp only [buildEntry, pyIndex_rowFor hc hcc, if_pos hfit,
      pyIndex_rowFor h1 h2]
    rw [specOpt_append Hh hc, if_pos hfit, Option.some.injEq]
    split_ifs <;> omega
  · simp only [buildEntry, pyIndex_rowFor hc hcc, if_neg hfit]
    rw [specOpt_append Hh hc, if_neg hfit]

theorem optionList_map {α β : Type} (xs : List α) (f : α → Option β)
    (g : α → β) (h : ∀ x ∈ xs, f x = some (g x)) :
    optionList (xs.map f) = some (xs.map g) := by
  induction xs with
  | nil => rfl
  | cons x rest ih =>
    rw [List.map_cons, List.map_cons]
    rw [h x (List.mem_cons_self x rest)]
    rw [optionList, ih fun y hy => h y (List.mem_cons_of_mem x hy)]
    rfl

theorem buildRow_rowFor {l : List Project} {p : Project} {capacity : Int}
    (Hh : ∀ q ∈ l ++ [p], 0 < q.hours) (hcap : 0 ≤ capacity) :
    buildRow (rowFor l capacity) p capacity =
      some (rowFor (l ++ [p]) capacity) := by
  rw [buildRow]
  have hr : rowFor (l ++ [p]) capacity =
      (List.range (capacity + 1).toNat).map
        fun cN : Nat => specOpt (l ++ [p]) (cN : Int) := rfl
  rw [hr]
  apply optionList_map
  intro cN hcN
  rw [List.mem_range] at hcN
  have hc : (0 : Int) ≤ (cN : Int) := Int.ofNat_nonneg cN
  have hcc : (cN : Int) ≤ capacity := by omega
  exact buildEntry_rowFor Hh hc hcc

theorem buildRows_rowFor {capacity : Int} (hcap : 0 ≤ capacity) :
    ∀ (rest pre : List Project), (∀ q ∈ pre ++ rest, 0 < q.hours) →
    buildRows (rowFor pre capacity) rest capacity =
      some ((List.range rest.length).map fun j =>
        rowFor (pre ++ rest.take (j + 1)) capacity)
  | [], pre => by
    intro _
    simp [buildRows]
  | p :: rest, pre => by
    intro Hh
    have Hh1 : ∀ q ∈ pre ++ [p], 0 < q.hours := by
      intro q hq
      rcases List.mem_append.1 hq with hq | hq
      · exact Hh q (List.mem_append_left _ hq)
      · rw [List.mem_singleton.1 hq]
        exact Hh p (List.mem_append_right _ (List.mem_cons_self p rest))
    have Hh2 : ∀ q ∈ (pre ++ [p]) ++ rest, 0 < q.hours := by
      intro q hq
      apply Hh q
      rw [List.append_assoc] at hq
      simpa using hq
    simp only [buildRows, buildRow_rowFor Hh1 hcap,
      buildRows_rowFor hcap rest (pre ++ [p]) Hh2]
    rw [List.length_cons, List.range_succ_eq_map, List.map_cons, List.map_map,
      Option.some.injEq]
    congr 1
    apply List.map_congr_left
    intro j _
    simp [Function.comp, Nat.succ_eq_add_one, List.take_succ_cons,
      List.append_assoc]

/-- The table `bottom_up_knapsack` builds is exactly `tableFor`: every
cell `T[i][c]` holds the optimum of the first `i` projects at capacity
`c`. -/
theorem bottomUpTable_eq {projects : List Project} {capacity : Int}
    (Hh : ∀ q ∈ projects, 0 < q.hours) (hcap : 0 ≤ capacity) :
    bottomUpTable projects capacity = some (tableFor projects capacity) := by
  rw [bottomUpTable, row0_eq_rowFor_nil,
    buildRows_rowFor hcap projects [] (by simpa using Hh), Option.map_some',
    Option.some.injEq, tableFor, List.range_succ_eq_map, List.map_cons,
    List.map_map]
  congr 1

theorem tableFor_get {projects : List Project} {capacity : Int} {i : Nat}
    (hi : i ≤ projects.length) :
    (tableFor projects capacity).get? i =
      some (rowFor (projects.take i) capacity) := by
  rw [tableFor, List.get?_eq_getElem?, List.getElem?_map,
    List.getElem?_range (by omega), Option.map_some']

/-! ## The backtracking reconstruction is a genuine optimal subset -/

/-- Walking the table from row `i` at capacity `c`, the reconstruction
appends (the reverse of) a sublist of the first `i` projects whose value
is exactly the optimum `T[i][c]` and whose hours fit in `c`. -/
theorem backtrack_spec {projects : List Project} {capacity : Int}
    (Hh : ∀ q ∈ projects, 0 < q.hours) (hcap : 0 ≤ capacity) :
    ∀ i : Nat, i ≤ projects.length → ∀ (c : Int) (acc : List Project),
    0 ≤ c → c ≤ capacity →
    ∃ sel : List Project,
      backtrack (tableFor projects capacity) projects i c acc =
        some (acc ++ sel.reverse, c - subsetHours sel) ∧
      sel.Sublist (projects.take i) ∧
      subsetValue sel = specOpt (projects.take i) c ∧
      0 ≤ c - subsetHours sel := by
  intro i
  induction i with
  | zero =>
    intro _ c acc hc _
    refine ⟨[], ?_, List.nil_sublist _, ?_, ?_⟩
    · simp [backtrack, subsetHours_nil]
    · rw [List.take_zero, specOpt_nil hc, subsetValue_nil]
    · rw [subsetHours_nil]
      omega
  | succ i ih =>
    intro hi c acc hc hcc
    have hi' : i < projects.length := by omega
    have hp : 0 < projects[i].hours := Hh projects[i] (projects.getElem_mem hi')
    have htake : projects.take (i + 1) = projects.take i ++ [projects[i]] := by
      rw [← List.take_concat_get projects i hi', List.concat_eq_append]
    have Hh1 : ∀ q ∈ projects.take i ++ [projects[i]], 0 < q.hours := by
      rw [← htake]
      exact fun q hq => Hh q (List.take_subset _ _ hq)
    have hbell := specOpt_append (c := c) Hh1 hc
    rw [← htake] at hbell
    simp only [backtrack, tableFor_get (show i + 1 ≤ projects.length by omega),
      tableFor_get (show i ≤ projects.length by omega),
      pyIndex_rowFor hc hcc]
    by_cases heq : specOpt (projects.take (i + 1)) c = specOpt (projects.take i) c
    · rw [if_neg (by simpa using heq)]
      obtain ⟨sel, hbt, hsub, hval, hrem⟩ := ih (by omega) c acc hc hcc
      refine ⟨sel, hbt, ?_, ?_, hrem⟩
      · exact hsub.trans (htake ▸ List.sublist_append_left _ _)
      · rw [hval, heq]
    · rw [if_pos (by simpa using heq)]
      have hfit : projects[i].hours ≤ c := by
        by_contra hnofit
        rw [if_neg hnofit] at hbell
        exact heq hbell
      rw [if_pos hfit] at hbell
      have hb : specOpt (projects.take (i + 1)) c =
          specOpt (projects.take i) (c - projects[i].hours) + projects[i].value := by
        omega
      rw [List.get?_eq_getElem?, List.getElem?_eq_getElem hi']
      obtain ⟨sel2, hbt, hsub, hval, hrem⟩ := ih (by omega)
        (c - projects[i].hours) (acc ++ [projects[i]]) (by omega) (by omega)
      refine ⟨sel2 ++ [projects[i]], ?_, ?_, ?_, ?_⟩
      · show backtrack (tableFor projects capacity) projects i
          (c - projects[i].hours) (acc ++ [projects[i]]) = _
        rw [hbt, List.reverse_append, List.reverse_singleton,
          List.singleton_append, subsetHours_append, subsetHours_cons,
          subsetHours_nil]
        rw [List.append_assoc, List.singleton_append]
        congr 2
        omega
      · rw [htake]
        exact hsub.append (List.Sublist.refl _)
      · rw [subsetValue_append, subsetValue_cons, subsetValue_nil, hval, hb]
        omega
      · rw [subsetHours_append, subsetHours_cons, subsetHours_nil]
        omega

/-- `bottom_up_knapsack` succeeds on well-formed input and returns the
optimum together with a feasible subset achieving it. -/
theorem bottom_up_spec {projects : List Project} {capacity : Int}
    (Hh : ∀ q ∈ projects, 0 < q.hours) (hcap : 0 ≤ capacity) :
    ∃ sel : List Project,
      bottom_up_knapsack projects capacity =
        some (specOpt projects capacity, sel) ∧
      sel.Sublist projects ∧
      subsetValue sel = specOpt projects capacity ∧
      subsetHours sel ≤ capacity := by
  obtain ⟨sel, hbt, hsub, hval, hrem⟩ :=
    backtrack_spec Hh hcap projects.length (le_refl _) capacity [] hcap (le_refl _)
  rw [List.take_length] at hsub hval
  refine ⟨sel, ?_, hsub, hval, by omega⟩
  rw [bottom_up_knapsack, bottomUpTable_eq Hh hcap]
  simp only [hbt, tableFor_get (le_refl projects.length), List.take_length,
    pyIndex_rowFor hcap (le_refl capacity), List.nil_append,
    List.reverse_reverse]

/-! ## Behaviour at non-positive capacity -/

theorem solveList_nonpos {l : List Project} {c : Int} (hc : c ≤ 0) :
    solveList l c = (0, []) := by
  cases l with
  | nil => rfl
  | cons p rest => simp only [solveList, if_pos hc]

/-- A negative capacity makes every table row the empty list, so the
final lookup `T[n][capacity]` (and the lookups of the reconstruction
when `n > 0`) raises `IndexError`. -/
theorem bottom_up_neg_none (projects : List Project) {capacity : Int}
    (hc : capacity < 0) : bottom_up_knapsack projects capacity = none := by
  have hz : (capacity + 1).toNat = 0 := by omega
  have hrow0 : row0 capacity = [] := by
    rw [row0, hz, List.replicate_zero]
  have hbr : ∀ (l : List Project) (prev : List Int),
      buildRows prev l capacity = some (List.replicate l.length []) := by
    intro l
    induction l with
    | nil => intro prev; rfl
    | cons p rest ih =>
      intro prev
      have hrowe : buildRow prev p capacity = some [] := by
        rw [buildRow, hz]
        rfl
      simp only [buildRows, hrowe, ih, List.length_cons, List.replicate_succ]
  have hT : bottomUpTable projects capacity =
      some ([] :: List.replicate projects.length []) := by
    rw [bottomUpTable, hbr projects (row0 capacity), Option.map_some', hrow0]
  have hpy : pyIndex [] capacity = none := by
    rw [pyIndex]
    have : ¬ ((0 : Int) ≤ (if capacity < 0 then ([] : List Int).length + capacity
        else capacity) ∧ (if capacity < 0 then ([] : List Int).length + capacity
        else capacity) < (([] : List Int).length : Int)) := by
      simp only [List.length_nil, if_pos hc]
      omega
    rw [dif_neg this]
  rw [bottom_up_knapsack, hT]
  cases hn : projects.length with
  | zero =>
    simp only [backtrack, List.get?_eq_getElem?, hn]
    simp only [List.replicate_zero, List.getElem?_cons_zero, hpy]
  | succ m =>
    have h1 : ([] :: List.replicate (m + 1) ([] : List Int)).get? (m + 1) =
        some [] := by
      rw [List.get?_eq_getElem?, List.getElem?_cons_succ,
        List.getElem?_replicate_of_lt (Nat.lt_succ_self m)]
    have h2 : ([] :: List.replicate (m + 1) ([] : List Int)).get? m =
        some [] := by
      cases m with
      | zero => rw [List.get?_eq_getElem?, List.getElem?_cons_zero]
      | succ k =>
        rw [List.get?_eq_getElem?, List.getElem?_cons_succ,
          List.getElem?_replicate_of_lt (by omega)]
    simp only [hn, backtrack, h1, h2, hpy]

/-! ## Claim theorems -/

/-- C1: for every list of projects with strictly positive hours and
non-negative values and every non-negative capacity, the three exact
solvers return the true 0/1-knapsack optimum `specOpt` as their total
value, and greedy's total value never exceeds it. -/
theorem exact_solvers_return_optimum_and_dominate_greedy
    (projects : List Project) (capacity : Int)
    (Hh : ∀ p ∈ projects, 0 < p.hours) (Hv : ∀ p ∈ projects, 0 ≤ p.value)
    (hcap : 0 ≤ capacity) :
    (recursive_knapsack projects capacity).1 = specOpt projects capacity ∧
    (memoized_knapsack projects capacity).1 = specOpt projects capacity ∧
    (∃ sel, bottom_up_knapsack projects capacity =
      some (specOpt projects capacity, sel)) ∧
    (∀ gv gch, greedy_knapsack projects capacity = some (gv, gch) →
      gv ≤ specOpt projects capacity) := by
  have h1 : (recursive_knapsack projects capacity).1 =
      specOpt projects capacity := by
    rw [recursive_knapsack_eq_solveList]
    exact solveList_optimal Hh hcap
  refine ⟨h1, ?_, ?_, ?_⟩
  · rw [memoized_eq_recursive]
    exact h1
  · obtain ⟨sel, hb, _⟩ := bottom_up_spec Hh hcap
    exact ⟨sel, hb⟩
  · intro gv gch hg
    exact (greedy_spec hcap hg).2.2

theorem exact_solvers_return_optimum_and_dominate_greedy_witness :
    (0 : Int) ≤ 1 ∧
    ((recursive_knapsack [Project.mk "A" 2 1] 1).1 =
        specOpt [Project.mk "A" 2 1] 1 ∧
      (memoized_knapsack [Project.mk "A" 2 1] 1).1 =
        specOpt [Project.mk "A" 2 1] 1 ∧
      (∃ sel, bottom_up_knapsack [Project.mk "A" 2 1] 1 =
        some (specOpt [Project.mk "A" 2 1] 1, sel)) ∧
      (∀ gv gch, greedy_knapsack [Project.mk "A" 2 1] 1 = some (gv, gch) →
        gv ≤ specOpt [Project.mk "A" 2 1] 1)) :=
  ⟨by decide, exact_solvers_return_optimum_and_dominate_greedy
    [Project.mk "A" 2 1] 1 (by decide) (by decide) (by decide)⟩

/-- C2 (counterexample): on the empty project list with capacity `-1`,
`bottom_up_knapsack` raises `IndexError` (modelled as `none`) — every
table row is `[0] * 0 = []`, so the final lookup `T[0][-1]` is out of
range — rather than returning the pair `(0, [])` the claim demands. -/
theorem bottom_up_negative_capacity_counterexample :
    ¬ bottom_up_knapsack [] (-1) = some (0, []) := by decide

/-- C2 (amended): for every capacity ≤ 0, `greedy_knapsack`,
`recursive_knapsack` and `memoized_knapsack` return `(0, [])`;
`bottom_up_knapsack` returns `(0, [])` at capacity `0` when every
project's hours are positive, but raises `IndexError` (`none`) for every
negative capacity. -/
theorem nonpositive_capacity_behaviour
    (projects : List Project) (capacity : Int) (hc : capacity ≤ 0) :
    greedy_knapsack projects capacity = some (0, []) ∧
    recursive_knapsack projects capacity = (0, []) ∧
    memoized_knapsack projects capacity = (0, []) ∧
    ((∀ p ∈ projects, 0 < p.hours) →
      bottom_up_knapsack projects 0 = some (0, [])) ∧
    (capacity < 0 → bottom_up_knapsack projects capacity = none) := by
  refine ⟨?_, ?_, ?_, ?_, fun hneg => bottom_up_neg_none projects hneg⟩
  · rw [greedy_knapsack, if_pos (Or.inl hc)]
  · rw [recursive_knapsack_eq_solveList, solveList_nonpos hc]
  · rw [memoized_eq_recursive, recursive_knapsack_eq_solveList,
      solveList_nonpos hc]
  · intro Hh
    obtain ⟨sel, hb, hsub, _, hhrs⟩ := bottom_up_spec Hh (le_refl 0)
    have hsel : sel = [] := subsetHours_eq_zero Hh hsub hhrs
    rw [hb, specOpt_zero_cap Hh, hsel]

theorem nonpositive_capacity_behaviour_witness :
    (-1 : Int) ≤ 0 ∧
    (greedy_knapsack [Project.mk "A" 2 1] (-1) = some (0, []) ∧
      recursive_knapsack [Project.mk "A" 2 1] (-1) = (0, []) ∧
      memoized_knapsack [Project.mk "A" 2 1] (-1) = (0, []) ∧
      ((∀ p ∈ [Project.mk "A" 2 1], 0 < p.hours) →
        bottom_up_knapsack [Project.mk "A" 2 1] 0 = some (0, [])) ∧
      ((-1 : Int) < 0 →
        bottom_up_knapsack [Project.mk "A" 2 1] (-1) = none)) :=
  ⟨by decide, nonpositive_capacity_behaviour [Project.mk "A" 2 1] (-1)
    (by decide)⟩

/-- C3: for positive hours and non-negative capacity, every solver's
chosen subset has total hours within the capacity. -/
theorem chosen_hours_within_capacity
    (projects : List Project) (capacity : Int)
    (Hh : ∀ p ∈ projects, 0 < p.hours) (hcap : 0 ≤ capacity) :
    (∀ gv gch, greedy_knapsack projects capacity = some (gv, gch) →
      subsetHours gch ≤ capacity) ∧
    subsetHours (recursive_knapsack projects capacity).2 ≤ capacity ∧
    subsetHours (memoized_knapsack projects capacity).2 ≤ capacity ∧
    (∀ v sel, bottom_up_knapsack projects capacity = some (v, sel) →
      subsetHours sel ≤ capacity) := by
  have hrec : subsetHours (recursive_knapsack projects capacity).2 ≤
      capacity := by
    rw [recursive_knapsack_eq_solveList]
    exact (solveList_sound projects capacity).2.2.2 hcap
  refine ⟨?_, hrec, ?_, ?_⟩
  · intro gv gch hg
    exact (greedy_spec hcap hg).2.1
  · rw [memoized_eq_recursive]
    exact hrec
  · intro v sel hb
    obtain ⟨sel2, hb2, _, _, hh⟩ := bottom_up_spec Hh hcap
    rw [hb] at hb2
    have hsel : sel = sel2 := congrArg Prod.snd (Option.some.inj hb2)
    rw [hsel]
    exact hh

theorem chosen_hours_within_capacity_witness :
    (0 : Int) ≤ 1 ∧
    ((∀ gv gch, greedy_knapsack [Project.mk "A" 2 1] 1 = some (gv, gch) →
        subsetHours gch ≤ 1) ∧
      subsetHours (recursive_knapsack [Project.mk "A" 2 1] 1).2 ≤ 1 ∧
      subsetHours (memoized_knapsack [Project.mk "A" 2 1] 1).2 ≤ 1 ∧
      (∀ v sel, bottom_up_knapsack [Project.mk "A" 2 1] 1 = some (v, sel) →
        subsetHours sel ≤ 1)) :=
  ⟨by decide, chosen_hours_within_capacity [Project.mk "A" 2 1] 1
    (by decide) (by decide)⟩

/-- C4: every solver's returned total value is the value sum of the
subset it returns; for `bottom_up_knapsack` that value is moreover the
table entry `T[n][capacity]`. -/
theorem returned_value_is_subset_value
    (projects : List Project) (capacity : Int)
    (Hh : ∀ p ∈ projects, 0 < p.hours) (hcap : 0 ≤ capacity) :
    (∀ gv gch, greedy_knapsack projects capacity = some (gv, gch) →
      gv = subsetValue gch) ∧
    (recursive_knapsack projects capacity).1 =
      subsetValue (recursive_knapsack projects capacity).2 ∧
    (memoized_knapsack projects capacity).1 =
      subsetValue (memoized_knapsack projects capacity).2 ∧
    (∀ v sel, bottom_up_knapsack projects capacity = some (v, sel) →
      v = subsetValue sel ∧
      ∃ T lastRow, bottomUpTable projects capacity = some T ∧
        T.get? projects.length = some lastRow ∧
        pyIndex lastRow capacity = some v) := by
  have hrec : (recursive_knapsack projects capacity).1 =
      subsetValue (recursive_knapsack projects capacity).2 := by
    rw [recursive_knapsack_eq_solveList]
    exact ((solveList_sound projects capacity).2.1).symm
  refine ⟨?_, hrec, ?_, ?_⟩
  · intro gv gch hg
    exact (greedy_spec hcap hg).1
  · rw [memoized_eq_recursive]
    exact hrec
  · intro v sel hb
    obtain ⟨sel2, hb2, _, hval2, _⟩ := bottom_up_spec Hh hcap
    rw [hb] at hb2
    have hv : v = specOpt projects capacity :=
      congrArg Prod.fst (Option.some.inj hb2)
    have hsel : sel = sel2 := congrArg Prod.snd (Option.some.inj hb2)
    refine ⟨by rw [hv, hsel, hval2], tableFor projects capacity,
      rowFor projects capacity, bottomUpTable_eq Hh hcap, ?_, ?_⟩
    · rw [tableFor_get (le_refl projects.length), List.take_length]
    · rw [pyIndex_rowFor hcap (le_refl capacity), hv]

theorem returned_value_is_subset_value_witness :
    (0 : Int) ≤ 1 ∧
    ((∀ gv gch, greedy_knapsack [Project.mk "A" 2 1] 1 = some (gv, gch) →
        gv = subsetValue gch) ∧
      (recursive_knapsack [Project.mk "A" 2 1] 1).1 =
        subsetValue (recursive_knapsack [Project.mk "A" 2 1] 1).2 ∧
      (memoized_knapsack [Project.mk "A" 2 1] 1).1 =
        subsetValue (memoized_knapsack [Project.mk "A" 2 1] 1).2 ∧
      (∀ v sel, bottom_up_knapsack [Project.mk "A" 2 1] 1 = some (v, sel) →
        v = subsetValue sel ∧
        ∃ T lastRow, bottomUpTable [Project.mk "A" 2 1] 1 = some T ∧
          T.get? (List.length [Project.mk "A" 2 1]) = some lastRow ∧
          pyIndex lastRow 1 = some v)) :=
  ⟨by decide, returned_value_is_subset_value [Project.mk "A" 2 1] 1
    (by decide) (by decide)⟩

/-- C5: on identical well-formed input the three exact solvers return
equal total values, and `memoized_knapsack` returns exactly the same
(value, subset) pair as `recursive_knapsack`. -/
theorem exact_solvers_agree (projects : List Project) (capacity : Int)
    (Hh : ∀ p ∈ projects, 0 < p.hours) (hcap : 0 ≤ capacity) :
    memoized_knapsack projects capacity = recursive_knapsack projects capacity ∧
    (memoized_knapsack projects capacity).1 =
      (recursive_knapsack projects capacity).1 ∧
    (∃ sel, bottom_up_knapsack projects capacity =
      some ((recursive_knapsack projects capacity).1, sel)) := by
  refine ⟨memoized_eq_recursive projects capacity,
    by rw [memoized_eq_recursive], ?_⟩
  obtain ⟨sel, hb, _⟩ := bottom_up_spec Hh hcap
  refine ⟨sel, ?_⟩
  rw [hb, recursive_knapsack_eq_solveList, solveList_optimal Hh hcap]

theorem exact_solvers_agree_witness :
    (0 : Int) ≤ 1 ∧
    (memoized_knapsack [Project.mk "A" 2 1] 1 =
        recursive_knapsack [Project.mk "A" 2 1] 1 ∧
      (memoized_knapsack [Project.mk "A" 2 1] 1).1 =
        (recursive_knapsack [Project.mk "A" 2 1] 1).1 ∧
      (∃ sel, bottom_up_knapsack [Project.mk "A" 2 1] 1 =
        some ((recursive_knapsack [Project.mk "A" 2 1] 1).1, sel))) :=
  ⟨by decide, exact_solvers_agree [Project.mk "A" 2 1] 1
    (by decide) (by decide)⟩

/-- C6: the constructed table satisfies `T[i][c] = specOpt (first i
projects) c` for all `0 ≤ i ≤ n` and `0 ≤ c ≤ capacity`; in particular
the zeroth row and the zeroth column are all `0`, and the returned value
is `T[n][capacity]`. -/
theorem table_cells_hold_prefix_optima (projects : List Project)
    (capacity : Int) (Hh : ∀ p ∈ projects, 0 < p.hours)
    (hcap : 0 ≤ capacity) :
    ∃ T, bottomUpTable projects capacity = some T ∧
      (∀ i, i ≤ projects.length → ∀ c : Int, 0 ≤ c → c ≤ capacity →
        ∃ row, T.get? i = some row ∧
          pyIndex row c = some (specOpt (projects.take i) c)) ∧
      (∀ c : Int, 0 ≤ c → c ≤ capacity →
        ∃ row, T.get? 0 = some row ∧ pyIndex row c = some 0) ∧
      (∀ i, i ≤ projects.length →
        ∃ row, T.get? i = some row ∧ pyIndex row 0 = some 0) ∧
      (∀ v sel, bottom_up_knapsack projects capacity = some (v, sel) →
        ∃ row, T.get? projects.length = some row ∧
          pyIndex row capacity = some v) := by
  refine ⟨tableFor projects capacity, bottomUpTable_eq Hh hcap,
    ?_, ?_, ?_, ?_⟩
  · intro i hi c hc hcc
    exact ⟨rowFor (projects.take i) capacity, tableFor_get hi,
      pyIndex_rowFor hc hcc⟩
  · intro c hc hcc
    refine ⟨rowFor (projects.take 0) capacity,
      tableFor_get (Nat.zero_le _), ?_⟩
    rw [pyIndex_rowFor hc hcc, List.take_zero, specOpt_nil hc]
  · intro i hi
    refine ⟨rowFor (projects.take i) capacity, tableFor_get hi, ?_⟩
    rw [pyIndex_rowFor (le_refl 0) hcap, specOpt_zero_cap
      fun q hq => Hh q (List.take_subset i projects hq)]
  · intro v sel hb
    obtain ⟨sel2, hb2, _, _, _⟩ := bottom_up_spec Hh hcap
    rw [hb] at hb2
    have hv : v = specOpt projects capacity :=
      congrArg Prod.fst (Option.some.inj hb2)
    refine ⟨rowFor projects capacity, ?_, ?_⟩
    · rw [tableFor_get (le_refl projects.length), List.take_length]
    · rw [pyIndex_rowFor hcap (le_refl capacity), hv]

theorem table_cells_hold_prefix_optima_witness :
    (0 : Int) ≤ 1 ∧
    (∃ T, bottomUpTable [Project.mk "A" 2 1] 1 = some T ∧
      (∀ i, i ≤ List.length [Project.mk "A" 2 1] → ∀ c : Int, 0 ≤ c → c ≤ 1 →
        ∃ row, T.get? i = some row ∧
          pyIndex row c = some (specOpt (List.take i [Project.mk "A" 2 1]) c)) ∧
      (∀ c : Int, 0 ≤ c → c ≤ 1 →
        ∃ row, T.get? 0 = some row ∧ pyIndex row c = some 0) ∧
      (∀ i, i ≤ List.length [Project.mk "A" 2 1] →
        ∃ row, T.get? i = some row ∧ pyIndex row 0 = some 0) ∧
      (∀ v sel, bottom_up_knapsack [Project.mk "A" 2 1] 1 = some (v, sel) →
        ∃ row, T.get? (List.length [Project.mk "A" 2 1]) = some row ∧
          pyIndex row 1 = some v)) :=
  ⟨by decide, table_cells_hold_prefix_optima [Project.mk "A" 2 1] 1
    (by decide) (by decide)⟩

/-- C7: in the recursive case analysis of both `recursive_knapsack`
(`solveRec`) and `memoized_knapsack` (`solveMemo`), when the value of
including the current project equals the value of excluding it, the
excluding branch's (value, subset) pair is returned. -/
theorem ties_favour_exclusion (projects : List Project) (i : Nat)
    (remaining : Int) (memo : Memo) (hi : i < projects.length)
    (hfit : (projects.get ⟨i, hi⟩).hours ≤ remaining)
    (hr : 0 < remaining)
    (heq : (solveRec projects (i + 1)
        (remaining - (projects.get ⟨i, hi⟩).hours)).1 +
          (projects.get ⟨i, hi⟩).value =
      (solveRec projects (i + 1) remaining).1)
    (hm : memoOK projects memo) :
    solveRec projects i remaining = solveRec projects (i + 1) remaining ∧
    (solveMemo projects i remaining memo).1 =
      solveRec projects (i + 1) remaining := by
  have hcond : ¬ (projects.length ≤ i ∨ remaining ≤ 0) := by omega
  have h1 : solveRec projects i remaining =
      solveRec projects (i + 1) remaining := by
    rw [solveRec, dif_neg hcond]
    simp only [if_pos hfit]
    rw [if_neg (by omega :
      ¬ (solveRec projects (i + 1) remaining).1 <
        (solveRec projects (i + 1)
          (remaining - (projects.get ⟨i, hi⟩).hours)).1 +
          (projects.get ⟨i, hi⟩).value)]
  refine ⟨h1, ?_⟩
  rw [(solveMemo_correct projects i remaining memo hm).1, h1]

theorem ties_favour_exclusion_witness :
    solveRec [Project.mk "A" 5 1, Project.mk "B" 5 1] 0 1 =
      solveRec [Project.mk "A" 5 1, Project.mk "B" 5 1] 1 1 ∧
    (solveMemo [Project.mk "A" 5 1, Project.mk "B" 5 1] 0 1 []).1 =
      solveRec [Project.mk "A" 5 1, Project.mk "B" 5 1] 1 1 :=
  ties_favour_exclusion [Project.mk "A" 5 1, Project.mk "B" 5 1] 0 1 []
    (by decide) (by decide) (by decide)
    (by rw [solveRec_eq_solveList, solveRec_eq_solveList]; decide)
    (memoOK_nil _)

/-- C8: on the scenario X1(60/10), X2(100/20), X3(120/30) with capacity
50, the three exact solvers return 220 with subset {X2, X3}, while the
greedy heuristic returns 160 with {X1, X2}, strictly less than 220. -/
theorem greedy_failure_scenario :
    recursive_knapsack
        [Project.mk "X1" 60 10, Project.mk "X2" 100 20,
          Project.mk "X3" 120 30] 50 =
      (220, [Project.mk "X2" 100 20, Project.mk "X3" 120 30]) ∧
    memoized_knapsack
        [Project.mk "X1" 60 10, Project.mk "X2" 100 20,
          Project.mk "X3" 120 30] 50 =
      (220, [Project.mk "X2" 100 20, Project.mk "X3" 120 30]) ∧
    bottom_up_knapsack
        [Project.mk "X1" 60 10, Project.mk "X2" 100 20,
          Project.mk "X3" 120 30] 50 =
      some (220, [Project.mk "X2" 100 20, Project.mk "X3" 120 30]) ∧
    greedy_knapsack
        [Project.mk "X1" 60 10, Project.mk "X2" 100 20,
          Project.mk "X3" 120 30] 50 =
      some (160, [Project.mk "X1" 60 10, Project.mk "X2" 100 20]) ∧
    (160 : Int) < 220 := by
  refine ⟨?_, ?_, by decide, ?_, by decide⟩
  · rw [recursive_knapsack_eq_solveList]
    decide
  · rw [memoized_eq_recursive, recursive_knapsack_eq_solveList]
    decide
  · norm_num [greedy_knapsack, List.insertionSort, List.orderedInsert,
      ratio, greedyLoop]
    decide

/-- C9: the three exact solvers return their chosen subset as a
subsequence of the input list (original order, no duplicated
positions), expressed by `List.Sublist`. -/
theorem chosen_subsets_are_subsequences (projects : List Project)
    (capacity : Int) (Hh : ∀ p ∈ projects, 0 < p.hours)
    (hcap : 0 ≤ capacity) :
    (recursive_knapsack projects capacity).2.Sublist projects ∧
    (memoized_knapsack projects capacity).2.Sublist projects ∧
    (∀ v sel, bottom_up_knapsack projects capacity = some (v, sel) →
      sel.Sublist projects) := by
  have hrec : (recursive_knapsack projects capacity).2.Sublist projects := by
    rw [recursive_knapsack_eq_solveList]
    exact (solveList_sound projects capacity).1
  refine ⟨hrec, ?_, ?_⟩
  · rw [memoized_eq_recursive]
    exact hrec
  · intro v sel hb
    obtain ⟨sel2, hb2, hsub2, _, _⟩ := bottom_up_spec Hh hcap
    rw [hb] at hb2
    have hsel : sel = sel2 := congrArg Prod.snd (Option.some.inj hb2)
    rw [hsel]
    exact hsub2

theorem chosen_subsets_are_subsequences_witness :
    (0 : Int) ≤ 1 ∧
    ((recursive_knapsack [Project.mk "A" 2 1] 1).2.Sublist
        [Project.mk "A" 2 1] ∧
      (memoized_knapsack [Project.mk "A" 2 1] 1).2.Sublist
        [Project.mk "A" 2 1] ∧
      (∀ v sel, bottom_up_knapsack [Project.mk "A" 2 1] 1 = some (v, sel) →
        sel.Sublist [Project.mk "A" 2 1])) :=
  ⟨by decide, chosen_subsets_are_subsequences [Project.mk "A" 2 1] 1
    (by decide) (by decide)⟩

/-- C10: with strictly positive hours on every project, the guarded
ratio computation in `greedy_knapsack` never takes its division-by-zero
error branch: the solver always returns a value (never `none`). -/
theorem greedy_ratio_never_divides_by_zero (projects : List Project)
    (capacity : Int) (Hh : ∀ p ∈ projects, 0 < p.hours) :
    greedy_knapsack projects capacity ≠ none := by
  rw [greedy_knapsack]
  by_cases htriv : capacity ≤ 0 ∨ projects = []
  · rw [if_pos htriv]
    exact Option.some_ne_none _
  · rw [if_neg htriv]
    have hall : (projects.all fun p => p.hours ≠ 0) = true := by
      rw [List.all_eq_true]
      intro p hp
      have := Hh p hp
      simp only [decide_eq_true_eq]
      omega
    rw [if_pos hall]
    exact Option.some_ne_none _

theorem greedy_ratio_never_divides_by_zero_witness :
    (∀ p ∈ [Project.mk "A" 1 2], 0 < p.hours) ∧
    greedy_knapsack [Project.mk "A" 1 2] 5 ≠ none :=
  ⟨by decide, greedy_ratio_never_divides_by_zero [Project.mk "A" 1 2] 5
    (by decide)⟩
